import Mathlib

/-!
Shallow embedding of `src/render/shade.rs` (gfx-rs shader parameter handling)
and proofs about its binding layer.

Modelling conventions:
* Rust slices / `Vec` become `List`; machine indices (`uint`) become `Nat`.
* Opaque external handles (`ProgramHandle`, `TextureHandle`, `SamplerHandle`,
  `RawBufferHandle`) are identifier-carrying records; this layer only stores
  and forwards them, never inspects them.
* `f32` payloads are never computed on in this file (values are only copied
  between containers), so they are modelled by an opaque carrier `F32`.
* A Rust function that can panic (`unwrap`, `debug_assert!`) is modelled as
  returning `Option`, with `none` standing for the abort; a function returning
  `Result<T, E>` is modelled as `Except E T`.
* `Cell<T>` interior mutability is modelled by explicit state passing: a
  mutation of a dictionary cell produces a new dictionary value
  (`setCellValue`), and `fill_params` takes slot buffers in and returns the
  updated buffers.
-/

namespace Shade

/-- Opaque texture handle, externally owned (from `device`). -/
structure TextureHandle where
  id : Nat
deriving DecidableEq, Repr

/-- Opaque sampler handle, externally owned (from `device`). -/
structure SamplerHandle where
  id : Nat
deriving DecidableEq, Repr

/-- Opaque raw buffer handle, externally owned (from `device`). -/
structure RawBufferHandle where
  id : Nat
deriving DecidableEq, Repr

/-- Carrier for `f32` payloads; this layer only copies such values, never
computes with them, so the carrier is opaque (an arbitrary countable type). -/
abbrev F32 := Int

/-- `device::shade::UniformValue`: tagged union over scalar, vector and matrix
values of integer and floating kinds (source lines 38-51 list the
`ToUniform` conversions into these variants). -/
inductive UniformValue where
  | ValueI32 (v : Int)
  | ValueF32 (v : F32)
  | ValueI32Vector2 (v : Int × Int)
  | ValueI32Vector3 (v : Int × Int × Int)
  | ValueI32Vector4 (v : Int × Int × Int × Int)
  | ValueF32Vector2 (v : F32 × F32)
  | ValueF32Vector3 (v : F32 × F32 × F32)
  | ValueF32Vector4 (v : F32 × F32 × F32 × F32)
  | ValueF32Matrix2 (v : (F32 × F32) × (F32 × F32))
  | ValueF32Matrix3 (v : (F32 × F32 × F32) × (F32 × F32 × F32) × (F32 × F32 × F32))
  | ValueF32Matrix4 (v : (F32 × F32 × F32 × F32) × (F32 × F32 × F32 × F32) ×
      (F32 × F32 × F32 × F32) × (F32 × F32 × F32 × F32))
deriving DecidableEq, Repr

/-- A texture parameter: a texture handle with an optional sampler
(`pub type TextureParam = (TextureHandle, Option<SamplerHandle>)`). -/
abbrev TextureParam := TextureHandle × Option SamplerHandle

/-- A uniform variable of a program's introspection data (`device::shade`):
only the name is consulted by this layer; the kind-specific metadata is
external and unused here. -/
structure UniformVar where
  name : String
deriving DecidableEq, Repr

/-- A uniform-block variable of a program's introspection data; only the name
is consulted by this layer. -/
structure BlockVar where
  name : String
deriving DecidableEq, Repr

/-- A texture variable of a program's introspection data; only the name is
consulted by this layer. -/
structure TextureVar where
  name : String
deriving DecidableEq, Repr

/-- `device::shade::ProgramInfo`: the ordered lists of uniform, block and
texture variables a compiled program declares. -/
structure ProgramInfo where
  uniforms : List UniformVar
  blocks : List BlockVar
  textures : List TextureVar
deriving DecidableEq, Repr

/-- Opaque program handle carrying its introspection data
(`prog.get_info()` in the source returns the `ProgramInfo`). -/
structure ProgramHandle where
  handle : Nat
  info : ProgramInfo
deriving DecidableEq, Repr

/-- `ProgramHandle::get_info`. -/
def ProgramHandle.get_info (p : ProgramHandle) : ProgramInfo := p.info

/-- `ParamValues`: borrowed mutable storage for shader parameter values;
three parallel sequences of optional slots. Modelled by value: a fill
operation takes the buffers in and returns the updated buffers. -/
structure ParamValues where
  uniforms : List (Option UniformValue)
  blocks : List (Option RawBufferHandle)
  textures : List (Option TextureParam)
deriving DecidableEq, Repr

/-- `ParameterError`: an error type on either the parameter storage or the
program side. -/
inductive ParameterError where
  | ErrorInternal
  | ErrorUniform (name : String)
  | ErrorBlock (name : String)
  | ErrorTexture (name : String)
deriving DecidableEq, Repr

namespace UnitParam

/-- `impl ShaderParam<()> for ()`, `create_link` (source lines 106-120):
succeed only when all three descriptor collections are empty, otherwise
report the head of the first non-empty collection, checked in the order
uniforms, blocks, textures. -/
def create_link (info : ProgramInfo) : Except ParameterError Unit :=
  match info.uniforms.head? with
  | some u => .error (.ErrorUniform u.name)
  | none =>
    match info.blocks.head? with
    | some b => .error (.ErrorBlock b.name)
    | none =>
      match info.textures.head? with
      | some t => .error (.ErrorTexture t.name)
      | none => .ok ()

/-- `impl ShaderParam<()> for ()`, `fill_params` (source lines 122-124): the
body is empty, the slot buffers are returned untouched. -/
def fill_params (params : ParamValues) : ParamValues := params

end UnitParam

/-- `UserProgram<L, T>`: a program handle together with the hidden link that
provides parameter indices for user data. (The Rust phantom parameter `T`
only selects the trait impl; here the impl's `create_link` is passed as an
explicit function where needed.) -/
structure UserProgram (L : Type) where
  program : ProgramHandle
  link : L
deriving DecidableEq, Repr

/-- `UserProgram::connect` (source lines 151-158): run the parameter
structure's `create_link` on the program's introspection data and, on
success, store the produced link alongside the program handle. The trait
method `ShaderParam::create_link` is passed explicitly (dictionary style). -/
def UserProgram.connect (create_link : ProgramInfo → Except ParameterError L)
    (prog : ProgramHandle) : Except ParameterError (UserProgram L) :=
  (create_link prog.get_info).map (fun link => { program := prog, link := link })

/-- `pub type EmptyProgram = UserProgram<(), ()>`. -/
abbrev EmptyProgram := UserProgram Unit

namespace EmptyProgram

/-- `impl Program for &EmptyProgram`, `fill_params` (source lines 182-191):
`debug_assert!` that all three slot sequences are empty, then write nothing.
The assert firing (abort in a debug build) is modelled by `none`; otherwise
the buffers are returned untouched. -/
def fill_params (params : ParamValues) : Option ParamValues :=
  if params.uniforms.isEmpty && params.blocks.isEmpty && params.textures.isEmpty
  then some params
  else none

end EmptyProgram

/-- `NamedCell<T>`: a named cell containing an arbitrary value. The `Cell<T>`
interior mutability is modelled by explicit state passing (`setCellValue`). -/
structure NamedCell (α : Type) where
  name : String
  value : α
deriving DecidableEq, Repr

/-- `Cell::set` on the cell at position `j` of a dictionary collection:
replace that cell's value, leaving its name and all other cells unchanged. -/
def setCellValue : List (NamedCell α) → Nat → α → List (NamedCell α)
  | [], _, _ => []
  | c :: cs, 0, v => { c with value := v } :: cs
  | c :: cs, j + 1, v => c :: setCellValue cs j v

/-- `ParamDictionary`: three sequences of named mutable cells, meant to be
shared between different programs. -/
structure ParamDictionary where
  uniforms : List (NamedCell UniformValue)
  blocks : List (NamedCell RawBufferHandle)
  textures : List (NamedCell TextureParam)
deriving DecidableEq, Repr

/-- `ParamDictionaryLink`: three sequences of indices redirecting program
input to the relevant dictionary cell. -/
structure ParamDictionaryLink where
  uniforms : List Nat
  blocks : List Nat
  textures : List Nat
deriving DecidableEq, Repr

/-- `DictionaryProgram`: a shader program with a dictionary of parameters.
(The Rust `Rc<ParamDictionary>` shared reference is modelled by value.) -/
structure DictionaryProgram where
  program : ProgramHandle
  link : ParamDictionaryLink
  data : ParamDictionary
deriving DecidableEq, Repr

/-- Rust `Iterator::position`: index of the first element satisfying the
predicate, `none` when there is none (used as
`data.uniforms.iter().position(|c| c.name == var.name)` in `connect`). -/
def position (p : α → Bool) : List α → Option Nat
  | [] => none
  | a :: l => if p a then some 0 else (position p l).map (· + 1)

/-- One collection's link construction inside `DictionaryProgram::connect`:
`vars.iter().map(|var| cells.iter().position(|c| c.name == var.name).unwrap()).collect()`.
The `unwrap` panic on a missing name is modelled by `none`. -/
def linkPositions (nameOf : υ → String) (cells : List (NamedCell α))
    (vars : List υ) : Option (List Nat) :=
  vars.mapM (fun var => position (fun c => c.name == nameOf var) cells)

/-- `DictionaryProgram::connect` (source lines 230-249): build the index link
by position lookups on cell names. The source carries a
`//TODO: proper error checks` and calls `.unwrap()` on each lookup: a missing
name aborts the whole program (modelled by `none`); the declared
`Result<DictionaryProgram, ParameterError>` return type notwithstanding, the
`Err` variant is never produced, so the success type alone remains. -/
def DictionaryProgram.connect (prog : ProgramHandle) (data : ParamDictionary) :
    Option DictionaryProgram := do
  let uniforms ← linkPositions UniformVar.name data.uniforms prog.get_info.uniforms
  let blocks ← linkPositions BlockVar.name data.blocks prog.get_info.blocks
  let textures ← linkPositions TextureVar.name data.textures prog.get_info.textures
  some { program := prog
         link := { uniforms := uniforms, blocks := blocks, textures := textures }
         data := data }

/-- One loop of `fill_params` for `&DictionaryProgram` (source lines 258-266):
`for (&id, var) in link.iter().zip(slots.mut_iter()) { *var = Some(cells[id].value.get()) }`.
The zip stops at the shorter of the two sequences; remaining slots are left
untouched. An out-of-bounds `cells[id]` (a Rust panic) is modelled by `none`. -/
def fillSlots (cells : List (NamedCell α)) : List Nat → List (Option α) → Option (List (Option α))
  | id :: ids, _ :: ss => do
    let c ← cells[id]?
    let rest ← fillSlots cells ids ss
    some (some c.value :: rest)
  | _, ss => some ss

/-- `impl Program for &DictionaryProgram`, `fill_params` (source lines
257-267): for each of the three categories, copy the current value of the
dictionary cell indexed by each link entry into the corresponding slot. -/
def DictionaryProgram.fill_params (p : DictionaryProgram) (params : ParamValues) :
    Option ParamValues := do
  let uniforms ← fillSlots p.data.uniforms p.link.uniforms params.uniforms
  let blocks ← fillSlots p.data.blocks p.link.blocks params.blocks
  let textures ← fillSlots p.data.textures p.link.textures params.textures
  some { uniforms := uniforms, blocks := blocks, textures := textures }

/-- Modelled from the spec: the per-field `fill_params` code of a static
(non-trivial) value source is generated by the `shader_param` attribute
outside this repository's `src/`; sections 4.2 and 9 of the spec describe it
as an order-preserving, index-driven copy of the source's enumerable field
values into the slots, with no name comparison at fill time. One category's
copy over the ordered field values. -/
def staticFillSlots : List α → List (Option α) → List (Option α)
  | v :: vs, _ :: ss => some v :: staticFillSlots vs ss
  | _, ss => ss

/-- Modelled from the spec: a static value source enumerated as ordered
sequences of field values, one per category (spec section 9, "model the
static value source as a fixed, ordered sequence of (name, value) pairs"). -/
structure StaticSource where
  uniforms : List UniformValue
  blocks : List RawBufferHandle
  textures : List TextureParam
deriving DecidableEq, Repr

/-- Modelled from the spec: `fill_params` of a generated static binder, the
order-preserving copy of the source's current field values into the slots. -/
def StaticSource.fill_params (src : StaticSource) (params : ParamValues) : ParamValues :=
  { uniforms := staticFillSlots src.uniforms params.uniforms
    blocks := staticFillSlots src.blocks params.blocks
    textures := staticFillSlots src.textures params.textures }

/-! ### Helper lemmas about `position` -/

theorem position_lt_length {p : α → Bool} :
    ∀ {l : List α} {i : Nat}, position p l = some i → i < l.length := by
  intro l
  induction l with
  | nil => intro i h; simp [position] at h
  | cons a l ih =>
    intro i h
    rw [position] at h
    by_cases hpa : p a
    · rw [if_pos hpa] at h
      cases h
      simp
    · rw [if_neg hpa] at h
      rw [Option.map_eq_some'] at h
      obtain ⟨j, hj, rfl⟩ := h
      have := ih hj
      simp only [List.length_cons]
      omega

theorem position_get {p : α → Bool} :
    ∀ {l : List α} {i : Nat}, position p l = some i →
      ∃ a, l[i]? = some a ∧ p a = true := by
  intro l
  induction l with
  | nil => intro i h; simp [position] at h
  | cons a l ih =>
    intro i h
    rw [position] at h
    by_cases hpa : p a
    · rw [if_pos hpa] at h
      cases h
      exact ⟨a, by simp, hpa⟩
    · rw [if_neg hpa] at h
      rw [Option.map_eq_some'] at h
      obtain ⟨j, hj, rfl⟩ := h
      obtain ⟨b, hb, hpb⟩ := ih hj
      exact ⟨b, by simpa using hb, hpb⟩

theorem position_min {p : α → Bool} :
    ∀ {l : List α} {i : Nat}, position p l = some i →
      ∀ j b, j < i → l[j]? = some b → p b = false := by
  intro l
  induction l with
  | nil => intro i h; simp [position] at h
  | cons a l ih =>
    intro i h j b hji hjb
    rw [position] at h
    by_cases hpa : p a
    · rw [if_pos hpa] at h
      cases h
      exact absurd hji (Nat.not_lt_zero j)
    · rw [if_neg hpa] at h
      rw [Option.map_eq_some'] at h
      obtain ⟨i', hi', rfl⟩ := h
      cases j with
      | zero =>
        simp at hjb
        subst hjb
        simpa using hpa
      | succ j =>
        rw [List.getElem?_cons_succ] at hjb
        exact ih hi' j b (by omega) hjb

/-! ### Helper lemmas about `mapM` over `Option` and `linkPositions` -/

theorem mapM_option_cons_inv {f : α → Option β} {a : α} {l : List α} {r : List β}
    (h : (a :: l).mapM f = some r) :
    ∃ b rs, f a = some b ∧ l.mapM f = some rs ∧ r = b :: rs := by
  rw [List.mapM_cons] at h
  cases hfa : f a with
  | none => rw [hfa] at h; simp at h
  | some b =>
    rw [hfa] at h
    cases hml : l.mapM f with
    | none => rw [hml] at h; simp at h
    | some rs =>
      rw [hml] at h
      simp at h
      exact ⟨b, rs, rfl, rfl, h.symm⟩

theorem linkPositions_nil {nameOf : υ → String} {cells : List (NamedCell α)} :
    linkPositions nameOf cells [] = some [] := rfl

theorem linkPositions_cons_inv {nameOf : υ → String} {cells : List (NamedCell α)}
    {v : υ} {vars : List υ} {idxs : List Nat}
    (h : linkPositions nameOf cells (v :: vars) = some idxs) :
    ∃ id ids, position (fun c => c.name == nameOf v) cells = some id ∧
      linkPositions nameOf cells vars = some ids ∧ idxs = id :: ids :=
  mapM_option_cons_inv h

theorem linkPositions_length {nameOf : υ → String} {cells : List (NamedCell α)} :
    ∀ {vars : List υ} {idxs : List Nat},
      linkPositions nameOf cells vars = some idxs → idxs.length = vars.length := by
  intro vars
  induction vars with
  | nil =>
    intro idxs h
    rw [linkPositions_nil] at h
    cases h
    rfl
  | cons v vars ih =>
    intro idxs h
    obtain ⟨id, ids, hp, hl, rfl⟩ := linkPositions_cons_inv h
    simp [ih hl]

theorem linkPositions_get {nameOf : υ → String} {cells : List (NamedCell α)} :
    ∀ {vars : List υ} {idxs : List Nat},
      linkPositions nameOf cells vars = some idxs →
      ∀ {i : Nat} {v : υ}, vars[i]? = some v →
        ∃ id, idxs[i]? = some id ∧
          position (fun c => c.name == nameOf v) cells = some id := by
  intro vars
  induction vars with
  | nil => intro idxs h i v hv; simp at hv
  | cons v0 vars ih =>
    intro idxs h i v hv
    obtain ⟨id, ids, hp, hl, rfl⟩ := linkPositions_cons_inv h
    cases i with
    | zero =>
      simp at hv
      subst hv
      exact ⟨id, by simp, hp⟩
    | succ i =>
      rw [List.getElem?_cons_succ] at hv
      obtain ⟨id', hid', hp'⟩ := ih hl hv
      exact ⟨id', by simpa using hid', hp'⟩

theorem linkPositions_bounds {nameOf : υ → String} {cells : List (NamedCell α)} :
    ∀ {vars : List υ} {idxs : List Nat},
      linkPositions nameOf cells vars = some idxs →
      ∀ id ∈ idxs, id < cells.length := by
  intro vars
  induction vars with
  | nil =>
    intro idxs h id hid
    rw [linkPositions_nil] at h
    cases h
    simp at hid
  | cons v vars ih =>
    intro idxs h id hid
    obtain ⟨id0, ids, hp, hl, rfl⟩ := linkPositions_cons_inv h
    rcases List.mem_cons.mp hid with rfl | hmem
    · exact position_lt_length hp
    · exact ih hl id hmem

/-! ### Helper lemmas about `fillSlots` -/

theorem fillSlots_nil_left {cells : List (NamedCell α)} {ss : List (Option α)} :
    fillSlots cells [] ss = some ss := rfl

theorem fillSlots_nil_right {cells : List (NamedCell α)} {id : Nat} {ids : List Nat} :
    fillSlots cells (id :: ids) [] = some [] := rfl

theorem fillSlots_cons_inv {cells : List (NamedCell α)} {id : Nat} {ids : List Nat}
    {s : Option α} {ss out : List (Option α)}
    (h : fillSlots cells (id :: ids) (s :: ss) = some out) :
    ∃ c rest, cells[id]? = some c ∧ fillSlots cells ids ss = some rest ∧
      out = some c.value :: rest := by
  rw [fillSlots] at h
  cases hc : cells[id]? with
  | none => rw [hc] at h; simp at h
  | some c =>
    rw [hc] at h
    cases hr : fillSlots cells ids ss with
    | none => rw [hr] at h; simp at h
    | some rest =>
      rw [hr] at h
      simp at h
      exact ⟨c, rest, rfl, rfl, h.symm⟩

theorem fillSlots_some {cells : List (NamedCell α)} :
    ∀ {ids : List Nat} (ss : List (Option α)),
      (∀ id ∈ ids, id < cells.length) →
      ∃ out, fillSlots cells ids ss = some out := by
  intro ids
  induction ids with
  | nil => intro ss _; exact ⟨ss, fillSlots_nil_left⟩
  | cons id0 ids ih =>
    intro ss h
    cases ss with
    | nil => exact ⟨[], fillSlots_nil_right⟩
    | cons s ss =>
      have hid : id0 < cells.length := h id0 (List.mem_cons_self _ _)
      obtain ⟨c, hc⟩ : ∃ c, cells[id0]? = some c := ⟨_, List.getElem?_eq_getElem hid⟩
      obtain ⟨out, hout⟩ := ih ss (fun i hi => h i (List.mem_cons_of_mem _ hi))
      refine ⟨some c.value :: out, ?_⟩
      rw [fillSlots, hc, hout]
      rfl

theorem fillSlots_length {cells : List (NamedCell α)} :
    ∀ {ids : List Nat} {ss out : List (Option α)},
      fillSlots cells ids ss = some out → out.length = ss.length := by
  intro ids
  induction ids with
  | nil =>
    intro ss out h
    rw [fillSlots_nil_left] at h
    cases h
    rfl
  | cons id0 ids ih =>
    intro ss out h
    cases ss with
    | nil =>
      rw [fillSlots_nil_right] at h
      cases h
      rfl
    | cons s ss =>
      obtain ⟨c, rest, hc, hrest, rfl⟩ := fillSlots_cons_inv h
      simp [ih hrest]

theorem fillSlots_get_lt {cells : List (NamedCell α)} :
    ∀ {ids : List Nat} {ss out : List (Option α)},
      fillSlots cells ids ss = some out →
      ∀ {i id : Nat} {c : NamedCell α}, ids[i]? = some id → i < ss.length →
        cells[id]? = some c → out[i]? = some (some c.value) := by
  intro ids
  induction ids with
  | nil => intro ss out h i id c hid hi hc; simp at hid
  | cons id0 ids ih =>
    intro ss out h i id c hid hi hc
    cases ss with
    | nil => simp at hi
    | cons s ss =>
      obtain ⟨c0, rest, hc0, hrest, rfl⟩ := fillSlots_cons_inv h
      cases i with
      | zero =>
        simp at hid
        subst hid
        rw [hc0] at hc
        cases hc
        simp
      | succ i =>
        rw [List.getElem?_cons_succ] at hid
        rw [List.length_cons] at hi
        rw [List.getElem?_cons_succ]
        exact ih hrest hid (by omega) hc

theorem fillSlots_get_ge {cells : List (NamedCell α)} :
    ∀ {ids : List Nat} {ss out : List (Option α)},
      fillSlots cells ids ss = some out →
      ∀ {i : Nat}, ids.length ≤ i → out[i]? = ss[i]? := by
  intro ids
  induction ids with
  | nil =>
    intro ss out h i _
    rw [fillSlots_nil_left] at h
    cases h
    rfl
  | cons id0 ids ih =>
    intro ss out h i hi
    cases ss with
    | nil =>
      rw [fillSlots_nil_right] at h
      cases h
      rfl
    | cons s ss =>
      obtain ⟨c, rest, hc, hrest, rfl⟩ := fillSlots_cons_inv h
      rw [List.length_cons] at hi
      cases i with
      | zero => omega
      | succ i =>
        simp only [List.getElem?_cons_succ]
        exact ih hrest (by omega)

theorem fillSlots_idem {cells : List (NamedCell α)} :
    ∀ {ids : List Nat} {ss out : List (Option α)},
      fillSlots cells ids ss = some out → fillSlots cells ids out = some out := by
  intro ids
  induction ids with
  | nil =>
    intro ss out h
    rw [fillSlots_nil_left] at h
    cases h
    exact fillSlots_nil_left
  | cons id0 ids ih =>
    intro ss out h
    cases ss with
    | nil =>
      rw [fillSlots_nil_right] at h
      cases h
      exact fillSlots_nil_right
    | cons s ss =>
      obtain ⟨c, rest, hc, hrest, rfl⟩ := fillSlots_cons_inv h
      rw [fillSlots, hc, ih hrest]
      rfl

/-! ### Helper lemmas about `setCellValue` -/

theorem setCellValue_length {v : α} :
    ∀ (cells : List (NamedCell α)) (j : Nat),
      (setCellValue cells j v).length = cells.length := by
  intro cells
  induction cells with
  | nil => intro j; rfl
  | cons c cs ih =>
    intro j
    cases j with
    | zero => rfl
    | succ j => simp [setCellValue, ih j]

theorem setCellValue_get_ne {v : α} :
    ∀ {cells : List (NamedCell α)} {j k : Nat}, k ≠ j →
      (setCellValue cells j v)[k]? = cells[k]? := by
  intro cells
  induction cells with
  | nil => intro j k _; rfl
  | cons c cs ih =>
    intro j k h
    cases j with
    | zero =>
      cases k with
      | zero => exact absurd rfl h
      | succ k => simp [setCellValue]
    | succ j =>
      cases k with
      | zero => simp [setCellValue]
      | succ k =>
        simp only [setCellValue, List.getElem?_cons_succ]
        exact ih (by omega)

theorem setCellValue_get_eq {v : α} :
    ∀ {cells : List (NamedCell α)} {j : Nat} {c : NamedCell α}, cells[j]? = some c →
      (setCellValue cells j v)[j]? = some { c with value := v } := by
  intro cells
  induction cells with
  | nil => intro j c h; simp at h
  | cons c0 cs ih =>
    intro j c h
    cases j with
    | zero =>
      simp at h
      subst h
      simp [setCellValue]
    | succ j =>
      rw [List.getElem?_cons_succ] at h
      simp only [setCellValue, List.getElem?_cons_succ]
      exact ih h

/-! ### Inversion and construction lemmas for `connect` and `fill_params` -/

theorem connect_inv {prog : ProgramHandle} {data : ParamDictionary} {p : DictionaryProgram}
    (h : DictionaryProgram.connect prog data = some p) :
    ∃ us bs ts,
      linkPositions UniformVar.name data.uniforms prog.get_info.uniforms = some us ∧
      linkPositions BlockVar.name data.blocks prog.get_info.blocks = some bs ∧
      linkPositions TextureVar.name data.textures prog.get_info.textures = some ts ∧
      p = { program := prog
            link := { uniforms := us, blocks := bs, textures := ts }
            data := data } := by
  unfold DictionaryProgram.connect at h
  cases hu : linkPositions UniformVar.name data.uniforms prog.get_info.uniforms with
  | none => rw [hu] at h; simp at h
  | some us =>
    rw [hu] at h
    cases hb : linkPositions BlockVar.name data.blocks prog.get_info.blocks with
    | none => rw [hb] at h; simp at h
    | some bs =>
      rw [hb] at h
      cases ht : linkPositions TextureVar.name data.textures prog.get_info.textures with
      | none => rw [ht] at h; simp at h
      | some ts =>
        rw [ht] at h
        simp at h
        exact ⟨us, bs, ts, rfl, rfl, rfl, h.symm⟩

theorem fill_params_inv {p : DictionaryProgram} {params out : ParamValues}
    (h : p.fill_params params = some out) :
    ∃ us bs ts,
      fillSlots p.data.uniforms p.link.uniforms params.uniforms = some us ∧
      fillSlots p.data.blocks p.link.blocks params.blocks = some bs ∧
      fillSlots p.data.textures p.link.textures params.textures = some ts ∧
      out = { uniforms := us, blocks := bs, textures := ts } := by
  unfold DictionaryProgram.fill_params at h
  cases hu : fillSlots p.data.uniforms p.link.uniforms params.uniforms with
  | none => rw [hu] at h; simp at h
  | some us =>
    rw [hu] at h
    cases hb : fillSlots p.data.blocks p.link.blocks params.blocks with
    | none => rw [hb] at h; simp at h
    | some bs =>
      rw [hb] at h
      cases ht : fillSlots p.data.textures p.link.textures params.textures with
      | none => rw [ht] at h; simp at h
      | some ts =>
        rw [ht] at h
        simp at h
        exact ⟨us, bs, ts, rfl, rfl, rfl, h.symm⟩

theorem fill_params_mk {p : DictionaryProgram} {params : ParamValues}
    {us : List (Option UniformValue)} {bs2 : List (Option RawBufferHandle)}
    {ts2 : List (Option TextureParam)}
    (hus : fillSlots p.data.uniforms p.link.uniforms params.uniforms = some us)
    (hbs : fillSlots p.data.blocks p.link.blocks params.blocks = some bs2)
    (hts : fillSlots p.data.textures p.link.textures params.textures = some ts2) :
    p.fill_params params = some { uniforms := us, blocks := bs2, textures := ts2 } := by
  unfold DictionaryProgram.fill_params
  rw [hus, hbs, hts]
  rfl

theorem connect_bounds {prog : ProgramHandle} {data : ParamDictionary}
    {p : DictionaryProgram} (h : DictionaryProgram.connect prog data = some p) :
    (∀ id ∈ p.link.uniforms, id < p.data.uniforms.length) ∧
    (∀ id ∈ p.link.blocks, id < p.data.blocks.length) ∧
    (∀ id ∈ p.link.textures, id < p.data.textures.length) := by
  obtain ⟨us, bs, ts, hu, hb, ht, rfl⟩ := connect_inv h
  exact ⟨linkPositions_bounds hu, linkPositions_bounds hb, linkPositions_bounds ht⟩

theorem fill_params_some {p : DictionaryProgram} (params : ParamValues)
    (h1 : ∀ id ∈ p.link.uniforms, id < p.data.uniforms.length)
    (h2 : ∀ id ∈ p.link.blocks, id < p.data.blocks.length)
    (h3 : ∀ id ∈ p.link.textures, id < p.data.textures.length) :
    ∃ out, p.fill_params params = some out := by
  obtain ⟨us, hus⟩ := fillSlots_some params.uniforms h1
  obtain ⟨bs, hbs⟩ := fillSlots_some params.blocks h2
  obtain ⟨ts, hts⟩ := fillSlots_some params.textures h3
  exact ⟨_, fill_params_mk hus hbs hts⟩

/-! ### Concrete values used by witnesses and counterexamples -/

/-- A concrete program declaring a single uniform named a. -/
def progA : ProgramHandle :=
  { handle := 1
    info := { uniforms := [{ name := "a" }], blocks := [], textures := [] } }

/-- A concrete dictionary holding a single uniform cell named a with value 5. -/
def dictA : ParamDictionary :=
  { uniforms := [{ name := "a", value := .ValueI32 5 }], blocks := [], textures := [] }

/-- The `DictionaryProgram` produced by connecting `progA` with `dictA`. -/
def dpA : DictionaryProgram :=
  { program := progA
    link := { uniforms := [0], blocks := [], textures := [] }
    data := dictA }

/-- A concrete program declaring a uniform named lightPos. -/
def progMissing : ProgramHandle :=
  { handle := 2
    info := { uniforms := [{ name := "lightPos" }], blocks := [], textures := [] } }

/-- The empty dictionary: no cell of any category. -/
def dictEmpty : ParamDictionary := { uniforms := [], blocks := [], textures := [] }

/-- A concrete program with an empty descriptor. -/
def progEmpty : ProgramHandle :=
  { handle := 3
    info := { uniforms := [], blocks := [], textures := [] } }

/-- Validation on the trivial source succeeds exactly on an empty descriptor
(shared helper). -/
theorem unit_create_link_ok_iff {info : ProgramInfo} :
    UnitParam.create_link info = .ok () ↔
      info.uniforms = [] ∧ info.blocks = [] ∧ info.textures = [] := by
  obtain ⟨us, bs, ts⟩ := info
  cases us <;> cases bs <;> cases ts <;> simp [UnitParam.create_link]

/-- An element found by an in-bounds optional lookup is a member of the list
(shared helper). -/
theorem mem_of_getElemOpt {l : List α} {i : Nat} {a : α} (h : l[i]? = some a) : a ∈ l := by
  obtain ⟨hi, rfl⟩ := List.getElem?_eq_some.mp h
  exact List.getElem_mem hi

/-- The spec-modelled static per-field copy is idempotent (shared helper). -/
theorem staticFillSlots_idem :
    ∀ (vs : List α) (ss : List (Option α)),
      staticFillSlots vs (staticFillSlots vs ss) = staticFillSlots vs ss := by
  intro vs
  induction vs with
  | nil => intro ss; rfl
  | cons v vs ih =>
    intro ss
    cases ss with
    | nil => rfl
    | cons s ss => simp [staticFillSlots, ih ss]

/-! ### Claim theorems -/

/-- C1: The claim states that `DictionaryProgram::connect` is total and
non-aborting, returning a `ParameterError` naming any descriptor variable
that is absent from the dictionary's corresponding collection. The code
instead calls `.unwrap()` on the failed position lookup (its own comment
reads `//TODO: proper error checks`): on the program declaring the uniform
lightPos and the empty dictionary, `connect` aborts (modelled by `none`), and
its `ParameterError` variant is never produced on any input. -/
theorem connect_aborts_on_missing_name :
    DictionaryProgram.connect progMissing dictEmpty = none := by decide

/-- C2: On the trivial (zero-parameter) value source, `create_link` succeeds
iff the descriptor's uniform, block and texture collections are all empty;
otherwise it reports the first offending variable, checked in the priority
order uniforms, blocks, textures, naming it in the matching error variant. -/
theorem unit_create_link_first_offending (info : ProgramInfo) :
    (UnitParam.create_link info = .ok () ↔
      info.uniforms = [] ∧ info.blocks = [] ∧ info.textures = []) ∧
    (∀ u, info.uniforms.head? = some u →
      UnitParam.create_link info = .error (.ErrorUniform u.name)) ∧
    (∀ b, info.uniforms = [] → info.blocks.head? = some b →
      UnitParam.create_link info = .error (.ErrorBlock b.name)) ∧
    (∀ t, info.uniforms = [] → info.blocks = [] → info.textures.head? = some t →
      UnitParam.create_link info = .error (.ErrorTexture t.name)) := by
  refine ⟨unit_create_link_ok_iff, ?_, ?_, ?_⟩
  · intro u hu
    unfold UnitParam.create_link
    rw [hu]
  · intro b hus hb
    unfold UnitParam.create_link
    rw [hus, hb]
    rfl
  · intro t hus hbs ht
    unfold UnitParam.create_link
    rw [hus, hbs, ht]
    rfl

/-- C2 witness: a descriptor whose first uniform is lightPos is rejected with
`ErrorUniform "lightPos"`. -/
theorem unit_create_link_first_offending_witness :
    UnitParam.create_link progMissing.get_info = .error (.ErrorUniform "lightPos") :=
  (unit_create_link_first_offending progMissing.get_info).2.1 { name := "lightPos" } rfl

/-- C5: `UserProgram::connect` is all-or-nothing: when `create_link` succeeds
it returns the complete `UserProgram` holding exactly the produced link and
the program handle; when `create_link` fails it returns that same
`ParameterError` and no program value is observable. -/
theorem user_connect_all_or_nothing {L : Type}
    (create_link : ProgramInfo → Except ParameterError L) (prog : ProgramHandle) :
    (∀ l, create_link prog.get_info = .ok l →
      UserProgram.connect create_link prog = .ok { program := prog, link := l }) ∧
    (∀ u, UserProgram.connect create_link prog = .ok u →
      u.program = prog ∧ create_link prog.get_info = .ok u.link) ∧
    (∀ e, UserProgram.connect create_link prog = .error e ↔
      create_link prog.get_info = .error e) := by
  unfold UserProgram.connect
  cases h : create_link prog.get_info with
  | error e => simp [Except.map]
  | ok l =>
    refine ⟨?_, ?_, ?_⟩
    · intro l0 hl0
      cases hl0
      rfl
    · intro u hu
      simp [Except.map] at hu
      subst hu
      exact ⟨rfl, rfl⟩
    · intro e
      simp [Except.map]

/-- C5 witness: connecting the empty-descriptor program with the trivial
parameter structure yields the fully linked `UserProgram`. -/
theorem user_connect_all_or_nothing_witness :
    UserProgram.connect UnitParam.create_link progEmpty =
      .ok { program := progEmpty, link := () } :=
  (user_connect_all_or_nothing UnitParam.create_link progEmpty).1 () rfl

/-- C7: When the link was produced by a successful trivial `create_link`
(hence against an empty descriptor) and the slot buffer is sized to that
descriptor, the `EmptyProgram::fill_params` debug assertion holds (no
abort), nothing is written, and all three slot sequences are empty. -/
theorem empty_fill_params_assertion (prog : ProgramHandle)
    (hok : UnitParam.create_link prog.get_info = .ok ())
    (params : ParamValues)
    (hu : params.uniforms.length = prog.get_info.uniforms.length)
    (hb : params.blocks.length = prog.get_info.blocks.length)
    (ht : params.textures.length = prog.get_info.textures.length) :
    EmptyProgram.fill_params params = some params ∧
    params.uniforms = [] ∧ params.blocks = [] ∧ params.textures = [] := by
  obtain ⟨h1, h2, h3⟩ := unit_create_link_ok_iff.mp hok
  rw [h1] at hu
  rw [h2] at hb
  rw [h3] at ht
  have e1 : params.uniforms = [] := List.length_eq_zero.mp (by simpa using hu)
  have e2 : params.blocks = [] := List.length_eq_zero.mp (by simpa using hb)
  have e3 : params.textures = [] := List.length_eq_zero.mp (by simpa using ht)
  refine ⟨?_, e1, e2, e3⟩
  unfold EmptyProgram.fill_params
  rw [e1, e2, e3]
  rfl

/-- C7 witness: the empty-descriptor program with empty slot sequences. -/
theorem empty_fill_params_assertion_witness :
    EmptyProgram.fill_params { uniforms := [], blocks := [], textures := [] } =
      some { uniforms := [], blocks := [], textures := [] } :=
  (empty_fill_params_assertion progEmpty rfl _ rfl rfl rfl).1

/-- C10: Error identification in trivial link creation is deterministic: two
runs of `create_link` on equal descriptors return equal results (the code
reads only the descriptor's collections; no hidden state or randomness). -/
theorem unit_create_link_deterministic (i1 i2 : ProgramInfo) (h : i1 = i2) :
    UnitParam.create_link i1 = UnitParam.create_link i2 := by rw [h]

/-- C10 witness: two syntactically distinct but equal descriptors report the
same offending variable. -/
theorem unit_create_link_deterministic_witness :
    UnitParam.create_link progMissing.get_info =
      UnitParam.create_link
        { uniforms := [{ name := "lightPos" }], blocks := [], textures := [] } :=
  unit_create_link_deterministic _ _ rfl

/-- C4: When `DictionaryProgram::connect` succeeds, the produced link's three
index sequences are sized exactly to the descriptor's uniform, block and
texture collections, and entry i of each sequence is the position in the
dictionary's corresponding collection (the first matching index) of the cell
whose name equals the name of descriptor variable i. -/
theorem connect_link_sizes_and_positions (prog : ProgramHandle) (data : ParamDictionary)
    (p : DictionaryProgram) (h : DictionaryProgram.connect prog data = some p) :
    p.link.uniforms.length = prog.get_info.uniforms.length ∧
    p.link.blocks.length = prog.get_info.blocks.length ∧
    p.link.textures.length = prog.get_info.textures.length ∧
    (∀ (i : Nat) (u : UniformVar), prog.get_info.uniforms[i]? = some u →
      ∃ (id : Nat) (c : NamedCell UniformValue),
        p.link.uniforms[i]? = some id ∧ data.uniforms[id]? = some c ∧
        c.name = u.name ∧
        ∀ (k : Nat) (ck : NamedCell UniformValue), k < id →
          data.uniforms[k]? = some ck → ck.name ≠ u.name) ∧
    (∀ (i : Nat) (b : BlockVar), prog.get_info.blocks[i]? = some b →
      ∃ (id : Nat) (c : NamedCell RawBufferHandle),
        p.link.blocks[i]? = some id ∧ data.blocks[id]? = some c ∧
        c.name = b.name ∧
        ∀ (k : Nat) (ck : NamedCell RawBufferHandle), k < id →
          data.blocks[k]? = some ck → ck.name ≠ b.name) ∧
    (∀ (i : Nat) (t : TextureVar), prog.get_info.textures[i]? = some t →
      ∃ (id : Nat) (c : NamedCell TextureParam),
        p.link.textures[i]? = some id ∧ data.textures[id]? = some c ∧
        c.name = t.name ∧
        ∀ (k : Nat) (ck : NamedCell TextureParam), k < id →
          data.textures[k]? = some ck → ck.name ≠ t.name) := by
  obtain ⟨us, bs, ts, hu, hb, ht, rfl⟩ := connect_inv h
  refine ⟨linkPositions_length hu, linkPositions_length hb, linkPositions_length ht,
    ?_, ?_, ?_⟩
  · intro i u hiu
    obtain ⟨id, hid, hpos⟩ := linkPositions_get hu hiu
    obtain ⟨c, hc, hpc⟩ := position_get hpos
    refine ⟨id, c, hid, hc, by simpa using hpc, ?_⟩
    intro k ck hk hck
    have := position_min hpos k ck hk hck
    simpa using this
  · intro i b hib
    obtain ⟨id, hid, hpos⟩ := linkPositions_get hb hib
    obtain ⟨c, hc, hpc⟩ := position_get hpos
    refine ⟨id, c, hid, hc, by simpa using hpc, ?_⟩
    intro k ck hk hck
    have := position_min hpos k ck hk hck
    simpa using this
  · intro i t hit
    obtain ⟨id, hid, hpos⟩ := linkPositions_get ht hit
    obtain ⟨c, hc, hpc⟩ := position_get hpos
    refine ⟨id, c, hid, hc, by simpa using hpc, ?_⟩
    intro k ck hk hck
    have := position_min hpos k ck hk hck
    simpa using this

/-- C4 witness: the link produced for `progA` against `dictA` has sequence
lengths matching the descriptor collections. -/
theorem connect_link_sizes_and_positions_witness :
    dpA.link.uniforms.length = progA.get_info.uniforms.length ∧
    dpA.link.blocks.length = progA.get_info.blocks.length ∧
    dpA.link.textures.length = progA.get_info.textures.length := by
  obtain ⟨h1, h2, h3, -, -, -⟩ :=
    connect_link_sizes_and_positions progA dictA dpA (by decide)
  exact ⟨h1, h2, h3⟩

/-- C8: Every index a successful `connect` records in the link is an
in-bounds position into the dictionary's corresponding collection, so
`fill_params` on such a `DictionaryProgram` never indexes the dictionary out
of bounds: its abort branch is unreachable and a result is always
produced. -/
theorem connect_link_indices_in_bounds (prog : ProgramHandle) (data : ParamDictionary)
    (p : DictionaryProgram) (h : DictionaryProgram.connect prog data = some p) :
    (∀ id ∈ p.link.uniforms, id < p.data.uniforms.length) ∧
    (∀ id ∈ p.link.blocks, id < p.data.blocks.length) ∧
    (∀ id ∈ p.link.textures, id < p.data.textures.length) ∧
    ∀ params : ParamValues, ∃ out, p.fill_params params = some out := by
  obtain ⟨hb1, hb2, hb3⟩ := connect_bounds h
  exact ⟨hb1, hb2, hb3, fun params => fill_params_some params hb1 hb2 hb3⟩

/-- C8 witness: filling `dpA` over a matching slot buffer produces a
result. -/
theorem connect_link_indices_in_bounds_witness :
    (dpA.fill_params { uniforms := [none], blocks := [], textures := [] }).isSome = true := by
  obtain ⟨-, -, -, h⟩ := connect_link_indices_in_bounds progA dictA dpA (by decide)
  obtain ⟨out, hout⟩ := h { uniforms := [none], blocks := [], textures := [] }
  rw [hout]
  rfl

/-- C6: For a connect-produced `DictionaryProgram` and slot sequences longer
than the link's corresponding index sequences, `fill_params` leaves every
slot at position at or beyond the link's length unchanged: only the first
link-length entries of each of the three slot sequences are written. -/
theorem dict_fill_beyond_link_untouched (prog : ProgramHandle) (data : ParamDictionary)
    (p : DictionaryProgram) (hp : DictionaryProgram.connect prog data = some p)
    (params : ParamValues)
    (_hu : p.link.uniforms.length < params.uniforms.length)
    (_hb : p.link.blocks.length < params.blocks.length)
    (_ht : p.link.textures.length < params.textures.length) :
    ∃ out, p.fill_params params = some out ∧
      (∀ i, p.link.uniforms.length ≤ i → out.uniforms[i]? = params.uniforms[i]?) ∧
      (∀ i, p.link.blocks.length ≤ i → out.blocks[i]? = params.blocks[i]?) ∧
      (∀ i, p.link.textures.length ≤ i → out.textures[i]? = params.textures[i]?) := by
  obtain ⟨hb1, hb2, hb3⟩ := connect_bounds hp
  obtain ⟨out, hout⟩ := fill_params_some params hb1 hb2 hb3
  obtain ⟨us, bs, ts, hus, hbs, hts, rfl⟩ := fill_params_inv hout
  exact ⟨_, hout, fun i hi => fillSlots_get_ge hus hi,
    fun i hi => fillSlots_get_ge hbs hi, fun i hi => fillSlots_get_ge hts hi⟩

/-- A concrete oversized slot buffer, strictly longer than the link of `dpA`
in each category. -/
def pvBig : ParamValues :=
  { uniforms := [none, some (UniformValue.ValueI32 7)]
    blocks := [some { id := 4 }]
    textures := [none] }

/-- C6 witness: with two uniform slots against the length-1 link of `dpA`,
slot 1 keeps its prior contents. -/
theorem dict_fill_beyond_link_untouched_witness :
    (dpA.fill_params pvBig).map (fun out => out.uniforms[1]?) =
      some (some (some (UniformValue.ValueI32 7))) := by
  obtain ⟨out, hout, h1, -, -⟩ :=
    dict_fill_beyond_link_untouched progA dictA dpA (by decide) pvBig
      (by decide) (by decide) (by decide)
  rw [hout, Option.map_some']
  rw [h1 1 (by decide)]
  rfl

/-- C9: `fill_params` is idempotent for every binder: a second call on the
same link with unchanged source values and the same slot buffer rewrites
every written slot with the same value, for the trivial binder, the
(spec-modelled) static binder, and the dictionary binder. -/
theorem fill_params_idempotent :
    (∀ params : ParamValues,
      UnitParam.fill_params (UnitParam.fill_params params) = UnitParam.fill_params params) ∧
    (∀ (src : StaticSource) (params : ParamValues),
      src.fill_params (src.fill_params params) = src.fill_params params) ∧
    (∀ (p : DictionaryProgram) (params out : ParamValues),
      p.fill_params params = some out → p.fill_params out = some out) := by
  refine ⟨fun params => rfl, ?_, ?_⟩
  · intro src params
    unfold StaticSource.fill_params
    simp [staticFillSlots_idem]
  · intro p params out h
    obtain ⟨us, bs, ts, hus, hbs, hts, rfl⟩ := fill_params_inv h
    exact fill_params_mk (fillSlots_idem hus) (fillSlots_idem hbs) (fillSlots_idem hts)

/-- C9 witness: refilling the already-filled buffer of `dpA` reproduces it. -/
theorem fill_params_idempotent_witness :
    dpA.fill_params
        { uniforms := [some (UniformValue.ValueI32 5)], blocks := [], textures := [] } =
      some { uniforms := [some (UniformValue.ValueI32 5)], blocks := [], textures := [] } :=
  fill_params_idempotent.2.2 dpA { uniforms := [none], blocks := [], textures := [] } _
    (by decide)

/-- A concrete empty slot buffer. -/
def pvNil : ParamValues := { uniforms := [], blocks := [], textures := [] }

/-- A concrete slot buffer with exactly one (empty) uniform slot, sized to
the descriptor of `progA`. -/
def pvOne : ParamValues := { uniforms := [none], blocks := [], textures := [] }

/-- C3 counterexample: the claim quantifies over every slot buffer and
asserts a write into slot i for every i below the link's length; on the
connect-produced `dpA`, whose link has uniform length 1, and a slot buffer
with an empty uniform sequence, `fill_params` succeeds but produces an
output with no slot 0 at all (`out.uniforms[0]?` is `none`, not the
dictionary cell's value), refuting the claim as stated. -/
theorem dict_fill_short_slots_cex :
    DictionaryProgram.connect progA dictA = some dpA ∧
    0 < dpA.link.uniforms.length ∧
    (dpA.fill_params pvNil).map (fun out => out.uniforms[0]?) = some none := by decide

/-- C3 (amended): for a connect-produced `DictionaryProgram` and any slot
buffer, `fill_params` never fails, and for each i below the link's length
that is also within the slot sequence, it writes into slot i the current
value of the dictionary cell at the index recorded in link entry i, with no
name comparison (the copy is determined by indices alone); mutating a
dictionary cell between two calls changes only the later call's output, and
only at slots whose link entry names the mutated cell. -/
theorem dict_fill_params_index_copy (prog : ProgramHandle) (data : ParamDictionary)
    (p : DictionaryProgram) (hp : DictionaryProgram.connect prog data = some p)
    (params : ParamValues) :
    ∃ out, p.fill_params params = some out ∧
      (∀ (i id : Nat) (c : NamedCell UniformValue), p.link.uniforms[i]? = some id →
        i < params.uniforms.length → p.data.uniforms[id]? = some c →
        out.uniforms[i]? = some (some c.value)) ∧
      (∀ (i id : Nat) (c : NamedCell RawBufferHandle), p.link.blocks[i]? = some id →
        i < params.blocks.length → p.data.blocks[id]? = some c →
        out.blocks[i]? = some (some c.value)) ∧
      (∀ (i id : Nat) (c : NamedCell TextureParam), p.link.textures[i]? = some id →
        i < params.textures.length → p.data.textures[id]? = some c →
        out.textures[i]? = some (some c.value)) ∧
      (∀ (j : Nat) (v : UniformValue), ∃ out2,
        DictionaryProgram.fill_params
          { p with data := { p.data with uniforms := setCellValue p.data.uniforms j v } }
          params = some out2 ∧
        out2.blocks = out.blocks ∧ out2.textures = out.textures ∧
        (∀ i id : Nat, p.link.uniforms[i]? = some id → id ≠ j →
          out2.uniforms[i]? = out.uniforms[i]?) ∧
        (∀ i : Nat, p.link.uniforms.length ≤ i → out2.uniforms[i]? = out.uniforms[i]?) ∧
        (∀ i : Nat, p.link.uniforms[i]? = some j → i < params.uniforms.length →
          out2.uniforms[i]? = some (some v))) := by
  obtain ⟨hb1, hb2, hb3⟩ := connect_bounds hp
  obtain ⟨out, hout⟩ := fill_params_some params hb1 hb2 hb3
  obtain ⟨us, bs, ts, hus, hbs, hts, hdef⟩ := fill_params_inv hout
  subst hdef
  refine ⟨_, hout, ?_, ?_, ?_, ?_⟩
  · intro i id c hid hi hc
    exact fillSlots_get_lt hus hid hi hc
  · intro i id c hid hi hc
    exact fillSlots_get_lt hbs hid hi hc
  · intro i id c hid hi hc
    exact fillSlots_get_lt hts hid hi hc
  · intro j v
    have hb1m : ∀ id ∈ p.link.uniforms, id < (setCellValue p.data.uniforms j v).length := by
      intro id hid
      rw [setCellValue_length]
      exact hb1 id hid
    obtain ⟨us2, hus2⟩ := fillSlots_some params.uniforms hb1m
    refine ⟨{ uniforms := us2, blocks := bs, textures := ts },
      fill_params_mk hus2 hbs hts, rfl, rfl, ?_, ?_, ?_⟩
    · intro i id hid hne
      show us2[i]? = us[i]?
      by_cases hi : i < params.uniforms.length
      · obtain ⟨c, hc⟩ : ∃ c, p.data.uniforms[id]? = some c :=
          ⟨_, List.getElem?_eq_getElem (hb1 id (mem_of_getElemOpt hid))⟩
        have h1 := fillSlots_get_lt hus hid hi hc
        have hc2 : (setCellValue p.data.uniforms j v)[id]? = some c := by
          rw [setCellValue_get_ne hne]
          exact hc
        have h2 := fillSlots_get_lt hus2 hid hi hc2
        rw [h1, h2]
      · have l1 : us.length = params.uniforms.length := fillSlots_length hus
        have l2 : us2.length = params.uniforms.length := fillSlots_length hus2
        rw [List.getElem?_eq_none (by omega), List.getElem?_eq_none (by omega)]
    · intro i hi
      show us2[i]? = us[i]?
      rw [fillSlots_get_ge hus2 hi, fillSlots_get_ge hus hi]
    · intro i hij hi
      show us2[i]? = some (some v)
      obtain ⟨c, hc⟩ : ∃ c, p.data.uniforms[j]? = some c :=
        ⟨_, List.getElem?_eq_getElem (hb1 j (mem_of_getElemOpt hij))⟩
      have hc2 := setCellValue_get_eq (v := v) hc
      exact fillSlots_get_lt hus2 hij hi hc2

/-- C3 witness: on `dpA` with a single empty uniform slot, the amended
theorem yields the dictionary cell's current value in slot 0. -/
theorem dict_fill_params_index_copy_witness :
    (dpA.fill_params pvOne).map (fun out => out.uniforms[0]?) =
      some (some (some (UniformValue.ValueI32 5))) := by
  obtain ⟨out, hout, hcopy, -, -, -⟩ :=
    dict_fill_params_index_copy progA dictA dpA (by decide) pvOne
  rw [hout, Option.map_some']
  rw [hcopy 0 0 { name := "a", value := UniformValue.ValueI32 5 }
    (by decide) (by decide) (by decide)]

end Shade
